import Mathlib

/-!
Verification development for `convert_to_blosc_and_back.py`: a DICOM-series to
chunked-compressed-store converter and its inverse reconstruction step.

The embedding models:
* the zarr codec pipeline configured by `dicom_to_zarr` (a byte-framing stage
  recording endianness explicitly, followed by a blosc compression stage);
* the chunked store created with chunk shape `(1, H, W)` and filled by
  `z[:] = arr`;
* the metadata sidecar produced by `save_metadata`;
* the reconstruction loop of `zarr_to_dicom` (per-slice naming, per-key tag
  attachment, per-slice write-failure tolerance, delete-then-recreate of the
  output directory);
* the per-series driver `process_series`.

Machine values are modelled as `Nat` bit patterns bounded by `256 ^ itemsize`.
The external zarr/blosc/SimpleITK libraries are not part of the repository;
where a claim depends on their behaviour the corresponding definition is
modelled from the spec and says so in its doc comment.
-/

namespace DicomZarr

/-- Byte order recorded by the byte-framing codec stage
(`"endian": "little" | "big"` in the codec descriptor). -/
inductive Endian where
  | little
  | big
deriving DecidableEq, Repr

/-- Little-endian serialization of a value into `k` bytes
(least significant byte first). -/
def natToBytesLE : Nat → Nat → List Nat
  | 0, _ => []
  | k + 1, n => (n % 256) :: natToBytesLE k (n / 256)

/-- Little-endian deserialization of a byte list into a value. -/
def natFromBytesLE : List Nat → Nat
  | [] => 0
  | b :: bs => b + 256 * natFromBytesLE bs

/-- Serialization of one element by the byte-framing stage, in the recorded
byte order. Big endian is the byte-reversal of little endian. -/
def toBytes (e : Endian) (k n : Nat) : List Nat :=
  match e with
  | .little => natToBytesLE k n
  | .big => (natToBytesLE k n).reverse

/-- Deserialization of one element by the byte-framing stage. -/
def fromBytes (e : Endian) (bs : List Nat) : Nat :=
  match e with
  | .little => natFromBytesLE bs
  | .big => natFromBytesLE bs.reverse

/-- Concatenation of the images of `f` over a list (used for flattening
rows into a slice byte stream and chunks into a volume). -/
def concatMap (f : α → List β) : List α → List β
  | [] => []
  | a :: l => f a ++ concatMap f l

/-- Splitting of a flat list into consecutive groups of `k` elements
(the inverse direction of flattening; used by the chunk decoder). -/
def groupList (k : Nat) (l : List α) : List (List α) :=
  if h : k = 0 ∨ l.length = 0 then []
  else l.take k :: groupList k (l.drop k)
termination_by l.length
decreasing_by
  push_neg at h
  have h1 : 0 < k := Nat.pos_of_ne_zero h.1
  simp only [List.length_drop]
  omega

/-- Modelled from the spec: the blosc compression stage (`cname: "zstd"`,
`clevel: 1`, `shuffle: "bitshuffle"`) is implemented by the external blosc
library, not by repository code.  The spec characterises a codec stage as
"one step of an ordered, invertible byte-transformation pipeline"; the stage
is modelled by a concrete lossless run-length coder over the byte stream. -/
def rleEncode : List Nat → List (Nat × Nat)
  | [] => []
  | x :: xs =>
    match rleEncode xs with
    | [] => [(1, x)]
    | (n, y) :: rest => if x = y then (n + 1, y) :: rest else (1, x) :: (n, y) :: rest

/-- Decompression stage inverting `rleEncode`. -/
def rleDecode (l : List (Nat × Nat)) : List Nat :=
  concatMap (fun p => List.replicate p.1 p.2) l

/-- An in-memory 3D array as produced by `sitk.GetArrayFromImage` in `(z, y, x)`
order: `depth` slices, each `height` rows of `width` samples.  `itemsize`
models `arr.itemsize` (bytes per element); sample values are the raw machine
bit patterns, as naturals below `256 ^ itemsize`. -/
structure Volume where
  depth : Nat
  height : Nat
  width : Nat
  itemsize : Nat
  data : List (List (List Nat))
deriving DecidableEq, Repr

/-- Shape consistency of a volume: `data` really has shape
`(depth, height, width)` and every sample fits in `itemsize` bytes. -/
def Volume.WF (v : Volume) : Prop :=
  v.data.length = v.depth ∧
    ∀ s ∈ v.data, s.length = v.height ∧
      ∀ r ∈ s, r.length = v.width ∧ ∀ x ∈ r, x < 256 ^ v.itemsize

instance (v : Volume) : Decidable v.WF := by
  unfold Volume.WF; infer_instance

/-- Configuration of the blosc codec stage exactly as passed by
`dicom_to_zarr` (`cname`, `clevel`, `shuffle`, `typesize`). -/
structure BloscConfig where
  cname : String
  clevel : Nat
  shuffle : String
  typesize : Nat
deriving DecidableEq, Repr

/-- Array-level metadata of a zarr store: shape, chunk shape, element byte
width, and the two-stage codec descriptor (byte framing with recorded
endianness, then the blosc stage). -/
structure StoreMeta where
  shape : Nat × Nat × Nat
  chunkShape : Nat × Nat × Nat
  itemsize : Nat
  endian : Endian
  blosc : BloscConfig
deriving DecidableEq, Repr

/-- A zarr store on disk: array metadata plus one chunk object per chunk
key (the leading chunk-grid coordinate, since chunk shape is `(1, H, W)`). -/
structure StoreDir where
  meta : StoreMeta
  chunkFiles : List (Nat × List (Nat × Nat))
deriving DecidableEq, Repr

/-- Encoding of one `(1, H, W)` chunk (one slice) through the codec
pipeline: flatten rows, serialize every sample in the recorded byte order,
then apply the compression stage. -/
def encodeSlice (e : Endian) (k : Nat) (s : List (List Nat)) : List (Nat × Nat) :=
  rleEncode (concatMap (toBytes e k) (concatMap (fun r => r) s))

/-- Decoding of one chunk: invert the compression stage, regroup bytes into
`k`-byte elements, decode each in the recorded byte order, regroup samples
into rows of `w`. -/
def decodeSlice (e : Endian) (k w : Nat) (payload : List (Nat × Nat)) : List (List Nat) :=
  groupList w ((groupList k (rleDecode payload)).map (fromBytes e))

/-- Keyed file write into a directory listing: replaces the entry with the
same key if present, otherwise appends a new entry. -/
def putFile [DecidableEq κ] (d : List (κ × β)) (key : κ) (b : β) : List (κ × β) :=
  if d.any (fun p => decide (p.1 = key)) then
    d.map (fun p => if p.1 = key then (key, b) else p)
  else d ++ [(key, b)]

/-- The chunk writes performed by `z[:] = arr`: chunk `i` holds the encoding
of slice `i`, written in index order starting at key `start`. -/
def writeSlices (e : Endian) (its : Nat) :
    Nat → List (List (List Nat)) → List (Nat × List (Nat × Nat)) → List (Nat × List (Nat × Nat))
  | _, [], d => d
  | i, s :: rest, d => writeSlices e its (i + 1) rest (putFile d i (encodeSlice e its s))

/-- Specification of the chunk objects laid down for consecutive slices
starting at chunk key `start`. -/
def encChunks (e : Endian) (its : Nat) : Nat → List (List (List Nat)) → List (Nat × List (Nat × Nat))
  | _, [] => []
  | i, s :: rest => (i, encodeSlice e its s) :: encChunks e its (i + 1) rest

/-- The store created by the write step for array `arr` on a platform with
byte order `e`: shape `arr.shape`, chunks `(1, H, W)`, dtype of `arr`, and
the fixed two-stage codec descriptor (`bytes` with the platform's endianness,
then `blosc` with `zstd`, level 1, bitshuffle, `typesize = arr.itemsize`);
then every slice written as one chunk. -/
def writeStoreCore (e : Endian) (v : Volume) : StoreDir :=
  { meta := { shape := (v.depth, v.height, v.width)
              chunkShape := (1, v.height, v.width)
              itemsize := v.itemsize
              endian := e
              blosc := { cname := "zstd", clevel := 1, shuffle := "bitshuffle",
                         typesize := v.itemsize } }
    chunkFiles := writeSlices e v.itemsize 0 v.data [] }

/-- Store write failures.  Modelled from the spec: the write path is the
external zarr library; the spec says it "Fails with `WriteError` on
non-writable paths or degenerate shapes (any zero dimension)". -/
inductive WriteError where
  | nonWritable
  | degenerateShape
deriving DecidableEq, Repr

/-- ChunkedStore write with its failure conditions.  Modelled from the spec:
the zarr library (not repository code) performs the write; per the spec it
fails with `WriteError` when the target path is not writable or any dimension
of the volume is zero, and otherwise persists the store of `writeStoreCore`. -/
def writeStore (writable : Bool) (e : Endian) (v : Volume) : Except WriteError StoreDir :=
  if writable = false then .error .nonWritable
  else if v.depth = 0 ∨ v.height = 0 ∨ v.width = 0 then .error .degenerateShape
  else .ok (writeStoreCore e v)

/-- ChunkedStore read (`zarr.open(zarr_path, mode="r")[:]`): shape, dtype and
byte order are taken from the store metadata; each chunk is decoded through
the inverse codec pipeline and the chunks are concatenated along the slice
axis in key order. -/
def readStore (s : StoreDir) : Volume :=
  { depth := s.meta.shape.1
    height := s.meta.shape.2.1
    width := s.meta.shape.2.2
    itemsize := s.meta.itemsize
    data := s.chunkFiles.map (fun p =>
      decodeSlice s.meta.endian s.meta.itemsize s.meta.shape.2.2 p.2) }

/-- Suffix of a path after its last `/`, on character lists
(`os.path.basename` for POSIX paths). -/
def basenameL (p : List Char) : List Char :=
  (p.reverse.takeWhile (fun c => c ≠ '/')).reverse

/-- `os.path.basename`. -/
def basename (s : String) : String :=
  ⟨basenameL s.data⟩

/-- Extension component of `os.path.splitext` on character lists: the part of
the basename from its last dot on, except that a basename consisting of dots
followed by no further dot (such as `.bashrc` or `...`) has no extension. -/
def extOfL (p : List Char) : List Char :=
  let b := basenameL p
  let r := b.reverse
  let tail := r.takeWhile (fun c => c ≠ '.')
  if tail.length = r.length then []
  else if ((r.drop (tail.length + 1)).reverse).all (fun c => c = '.') then []
  else '.' :: tail.reverse

/-- `os.path.splitext`: root and extension, with `root ++ ext = path`. -/
def splitext (s : String) : String × String :=
  let ext := extOfL s.data
  (⟨s.data.take (s.data.length - ext.length)⟩, ⟨ext⟩)

/-- Decimal digit characters of `n`, most significant first (empty for 0).
Used to model Python's four-digit zero-padded decimal formatting. -/
def decRepr (n : Nat) : List Char :=
  ((Nat.digits 10 n).map Nat.digitChar).reverse

/-- Python's decimal rendering of a natural number (`"0"` for zero, no
leading zeros otherwise). -/
def pyRepr (n : Nat) : List Char :=
  if n = 0 then ['0'] else decRepr n

/-- Python's four-digit zero-padded format: the decimal representation of `i` left-padded
with `'0'` to at least four characters. -/
def pad4 (i : Nat) : String :=
  ⟨List.replicate (4 - (pyRepr i).length) '0' ++ pyRepr i⟩

/-- The metadata sidecar record as serialized by `save_metadata` and read back
by `load_metadata` (field for field the JSON object). -/
structure Metadata where
  filenames : List String
  origin : List Float
  spacing : List Float
  direction : List Float
  size : List Nat
  pixel_id : Nat
  pixel_id_type_as_string : String
  slices_metadata : List (List (String × String))

/-- The facets of a loaded SimpleITK image that `save_metadata` reads:
`GetSize()` (x, y, z order), geometry, and pixel-type tag.  Modelled from the
spec: the image object itself is produced by the external SimpleITK reader. -/
structure SitkImage where
  sizeX : Nat
  sizeY : Nat
  sizeZ : Nat
  origin : List Float
  spacing : List Float
  direction : List Float
  pixel_id : Nat
  pixel_id_type_as_string : String

/-- The per-slice tag capability of the series reader
(`GetMetaDataKeys(i)` together with `GetMetaData(i, key)`, available for all
slices because `MetaDataDictionaryArrayUpdateOn` was set).  Modelled from the
spec: the reader is the external SimpleITK `ImageSeriesReader`. -/
structure SeriesReader where
  sliceTags : Nat → List (String × String)

/-- `save_metadata`: builds the sidecar record from the image, the reader and
the discovered filenames; `slices_metadata` collects the tag mapping of every
slice index in `range(depth)` where `depth = image.GetSize()[2]`. -/
def save_metadata (image : SitkImage) (reader : SeriesReader)
    (filenames : List String) : Metadata :=
  { filenames := filenames
    origin := image.origin
    spacing := image.spacing
    direction := image.direction
    size := [image.sizeX, image.sizeY, image.sizeZ]
    pixel_id := image.pixel_id
    pixel_id_type_as_string := image.pixel_id_type_as_string
    slices_metadata := (List.range image.sizeZ).map reader.sliceTags }

/-- One series as handed to `dicom_to_zarr` by its external collaborators:
the discovered ordered filenames (`GetGDCMSeriesFileNames`), the loaded image,
the reader with its per-slice tags, and the numpy array of the image. -/
structure SeriesInput where
  files : List String
  image : SitkImage
  reader : SeriesReader
  arr : Volume

/-- Modelled from the spec: the loader "reads all slice data into one 3D
array (z, y, x order)" with one slice per discovered file, so the array shape
agrees with the image size (`GetSize()` is x, y, z) and the depth equals the
number of discovered files. -/
def SeriesInput.WF (inp : SeriesInput) : Prop :=
  inp.arr.depth = inp.files.length ∧ inp.image.sizeZ = inp.arr.depth ∧
    inp.image.sizeY = inp.arr.height ∧ inp.image.sizeX = inp.arr.width

instance (inp : SeriesInput) : Decidable inp.WF := by
  unfold SeriesInput.WF; infer_instance

/-- The filesystem locations one series touches: the store at
`<series>.zarr`, the sidecar at `<series>.json`, and the reconstructed output
directory (a listing of filename/content pairs). -/
structure FS where
  store : Option StoreDir
  sidecar : Option Metadata
  recon : Option (List (String × (List (List Nat) × List (String × String))))

/-- Opening a zarr array at a path in mode `"w"`: array metadata is written
fresh.  Modelled from the spec: chunk objects already present at the path are
not merged away by the array creation itself — the full cleanup is the
caller's explicit delete ("if a store already exists at the target path, it
is deleted in full before a new one is created"). -/
def zarrOpenW (prior : Option StoreDir) (meta : StoreMeta) : StoreDir :=
  { meta := meta, chunkFiles := (prior.map StoreDir.chunkFiles).getD [] }

/-- `dicom_to_zarr`: discovery, load, store write (delete-then-create), and
sidecar write for one series.  Returns the updated filesystem and whether
paths were produced (`False` models the `return None, None` skip on empty
discovery).  `e` is the platform byte order (`sys.byteorder`). -/
def dicom_to_zarr (e : Endian) (inp : SeriesInput) (fs : FS) : FS × Bool :=
  if inp.files.isEmpty then (fs, false)
  else
    let arr := inp.arr
    let afterRm : Option StoreDir := if fs.store.isSome then none else fs.store
    let meta : StoreMeta :=
      { shape := (arr.depth, arr.height, arr.width)
        chunkShape := (1, arr.height, arr.width)
        itemsize := arr.itemsize
        endian := e
        blosc := { cname := "zstd", clevel := 1, shuffle := "bitshuffle",
                   typesize := arr.itemsize } }
    let z0 := zarrOpenW afterRm meta
    let z : StoreDir := { z0 with chunkFiles := writeSlices e arr.itemsize 0 arr.data z0.chunkFiles }
    let md := save_metadata inp.image inp.reader inp.files
    ({ fs with store := some z, sidecar := some md }, true)

/-- Per-key tag restoration on one slice: each key/value pair is attached by
its own `SetMetaData` call inside `try/except Exception: pass`, so a pair
lands on the slice exactly when its key's call does not raise.  `fail k`
models "attaching key `k` raises". -/
def attachTags (fail : String → Bool) (ts : List (String × String)) : List (String × String) :=
  ts.filter (fun p => !(fail p.1))

/-- Output extension: `".dcm"` by default, replaced by
`os.path.splitext(filenames[0])[1]` when the record lists any filenames. -/
def extensionOf (filenames : List String) : String :=
  if filenames.isEmpty then ".dcm" else (splitext (filenames.headD "")).2

/-- Output name of slice `i`: the basename of recorded filename `i` when one
exists, otherwise the zero-padded sequential fallback of `pad4 i` followed by the extension. -/
def sliceName (filenames : List String) (ext : String) (i : Nat) : String :=
  if i < filenames.length then basename (filenames.getD i "")
  else pad4 i ++ ext

/-- Tags attached to slice `i`: the record's mapping for index `i` filtered
by per-key attach failures when `i` is in range of `slices_metadata`, nothing
otherwise. -/
def sliceTagsFor (slicesMd : List (List (String × String)))
    (tf : Nat → String → Bool) (i : Nat) : List (String × String) :=
  if i < slicesMd.length then attachTags (tf i) (slicesMd.getD i []) else []

/-- The per-slice write attempts of the reconstruction loop, in index order:
`none` when `writer.Execute` raises for that slice (`wf i`), otherwise the
written file's name, pixel content and attached tags.  `tf i k` models
"`SetMetaData(k, …)` raises on slice `i`". -/
def writeEvents (arr : Volume) (md : Metadata) (wf : Nat → Bool)
    (tf : Nat → String → Bool) :
    List (Option (String × (List (List Nat) × List (String × String)))) :=
  (List.range arr.depth).map (fun i =>
    if wf i then none
    else some (sliceName md.filenames (extensionOf md.filenames) i,
      (arr.data.getD i [], sliceTagsFor md.slices_metadata tf i)))

/-- Effect of one loop iteration on the output directory: a failed write
(`none`) leaves the directory unchanged, a successful write stores the file
under its name, overwriting any earlier file of the same name. -/
def writeStep (d : List (String × β)) (ev : Option (String × β)) : List (String × β) :=
  match ev with
  | none => d
  | some (n, c) => putFile d n c

/-- Contents of the output directory after the loop: successful writes are
applied in order to an initially empty directory. -/
def buildDir (events : List (Option (String × β))) : List (String × β) :=
  events.foldl writeStep []

/-- `zarr_to_dicom`: read the store and the sidecar back, delete and recreate
the output directory, then run the per-slice reconstruction loop.  Geometry
restoration (`SetOrigin`/`SetSpacing`/`SetDirection`) and
`KeepOriginalImageUIDOn` affect only file internals carried verbatim and are
not modelled beyond the slice pixel content. -/
def zarr_to_dicom (wf : Nat → Bool) (tf : Nat → String → Bool) (fs : FS) : FS :=
  match fs.store, fs.sidecar with
  | some st, some md =>
    let arr := readStore st
    let priorDir := if fs.recon.isSome then none else fs.recon
    let dir0 : List (String × (List (List Nat) × List (String × String))) :=
      (priorDir.map id).getD []
    { fs with recon := some ((writeEvents arr md wf tf).foldl writeStep dir0) }
  | _, _ => fs

/-- `process_series`: forward conversion, then reconstruction only when the
conversion produced both paths. -/
def process_series (e : Endian) (inp : SeriesInput) (wf : Nat → Bool)
    (tf : Nat → String → Bool) (fs : FS) : FS :=
  let r := dicom_to_zarr e inp fs
  if r.2 then zarr_to_dicom wf tf r.1 else r.1

/-- A small concrete volume used to exercise the theorems: two slices of one
row of two 16-bit samples. -/
def sampleVolume : Volume :=
  { depth := 2, height := 1, width := 2, itemsize := 2,
    data := [[[0, 300]], [[65535, 7]]] }

/-- A concrete loaded image matching `sampleVolume`. -/
def sampleImage : SitkImage :=
  { sizeX := 2, sizeY := 1, sizeZ := 2,
    origin := [0.0, 0.0, 0.0], spacing := [1.0, 1.0, 1.0],
    direction := [1.0, 0.0, 0.0, 0.0, 1.0, 0.0, 0.0, 0.0, 1.0],
    pixel_id := 2, pixel_id_type_as_string := "16-bit signed integer" }

/-- A concrete reader capability with one tag per slice. -/
def sampleReader : SeriesReader :=
  ⟨fun i => [("0020|0013", toString i)]⟩

/-- A concrete series input with two discovered files. -/
def sampleInput : SeriesInput :=
  { files := ["data/raw/s1/a.dcm", "data/raw/s1/b.dcm"]
    image := sampleImage
    reader := sampleReader
    arr := sampleVolume }

/-- The concrete empty filesystem state. -/
def emptyFS : FS := ⟨none, none, none⟩

/-- A concrete sidecar record as written for `sampleInput`. -/
def sampleMetadata : Metadata :=
  save_metadata sampleImage sampleReader ["data/raw/s1/a.dcm", "data/raw/s1/b.dcm"]

/-- A concrete store as written for `sampleVolume` on a little-endian
platform. -/
def sampleStore : StoreDir := writeStoreCore .little sampleVolume

/-- A concrete filesystem state holding `sampleStore` and `sampleMetadata`. -/
def sampleFS : FS := ⟨some sampleStore, some sampleMetadata, none⟩

/-- A concrete filesystem state additionally holding a stale three-file
reconstruction directory from an earlier run of different depth. -/
def staleFS : FS :=
  ⟨some sampleStore, some sampleMetadata,
    some [("old1.dcm", ([], [])), ("old2.dcm", ([], [])), ("old3.dcm", ([], []))]⟩

/-- A concrete sidecar record whose lists are shorter than the store depth
(one filename, no per-slice tag mappings). -/
def shortMetadata : Metadata :=
  { sampleMetadata with filenames := ["data/raw/s1/a.dcm"], slices_metadata := [] }

/-- A concrete filesystem state pairing `sampleStore` (depth 2) with the
too-short `shortMetadata`. -/
def mismatchFS : FS := ⟨some sampleStore, some shortMetadata, none⟩

theorem natToBytesLE_length (k n : Nat) : (natToBytesLE k n).length = k := by
  induction k generalizing n with
  | zero => rfl
  | succ k ih => simp [natToBytesLE, ih]

theorem natFromBytesLE_natToBytesLE (k n : Nat) (h : n < 256 ^ k) :
    natFromBytesLE (natToBytesLE k n) = n := by
  induction k generalizing n with
  | zero =>
    simp only [pow_zero, Nat.lt_one_iff] at h
    simp [natToBytesLE, natFromBytesLE, h]
  | succ k ih =>
    have hdiv : n / 256 < 256 ^ k := by
      rw [Nat.div_lt_iff_lt_mul (by norm_num)]
      calc n < 256 ^ (k + 1) := h
        _ = 256 ^ k * 256 := by ring
    simp only [natToBytesLE, natFromBytesLE, ih _ hdiv]
    omega

theorem toBytes_length (e : Endian) (k n : Nat) : (toBytes e k n).length = k := by
  cases e <;> simp [toBytes, natToBytesLE_length]

theorem fromBytes_toBytes (e : Endian) (k n : Nat) (h : n < 256 ^ k) :
    fromBytes e (toBytes e k n) = n := by
  cases e <;>
    simp [toBytes, fromBytes, List.reverse_reverse, natFromBytesLE_natToBytesLE k n h]

theorem mem_concatMap {f : α → List β} {l : List α} {b : β} :
    b ∈ concatMap f l ↔ ∃ a ∈ l, b ∈ f a := by
  induction l with
  | nil => simp [concatMap]
  | cons a l ih => simp [concatMap, ih]

theorem groupList_nil (k : Nat) : groupList k ([] : List α) = [] := by
  rw [groupList]; simp

theorem groupList_append (k : Nat) (hk : k ≠ 0) (a b : List α) (ha : a.length = k) :
    groupList k (a ++ b) = a :: groupList k b := by
  subst ha
  rw [groupList, dif_neg (by simp only [List.length_append]; omega)]
  rw [List.take_left, List.drop_left]

theorem groupList_concatMap (k : Nat) (hk : k ≠ 0) (f : α → List β) (l : List α)
    (hf : ∀ a ∈ l, (f a).length = k) :
    groupList k (concatMap f l) = l.map f := by
  induction l with
  | nil => simp [concatMap, groupList_nil]
  | cons a l ih =>
    simp only [concatMap, List.map_cons]
    rw [groupList_append k hk _ _ (hf a (by simp))]
    rw [ih (fun x hx => hf x (by simp [hx]))]

theorem rleDecode_rleEncode (l : List Nat) : rleDecode (rleEncode l) = l := by
  induction l with
  | nil => rfl
  | cons x xs ih =>
    simp only [rleEncode]
    cases hxs : rleEncode xs with
    | nil =>
      rw [hxs] at ih
      simp only [rleDecode, concatMap] at ih
      subst ih
      simp [rleDecode, concatMap]
    | cons p rest =>
      obtain ⟨n, y⟩ := p
      rw [hxs] at ih
      by_cases hxy : x = y
      · subst hxy
        simp only [if_pos rfl]
        simp only [rleDecode, concatMap] at ih ⊢
        rw [List.replicate_succ, List.cons_append, ih]
      · simp only [if_neg hxy]
        simp only [rleDecode, concatMap] at ih ⊢
        rw [ih]
        simp

theorem map_eq_self {f : α → α} {l : List α} (h : ∀ x ∈ l, f x = x) : l.map f = l := by
  induction l with
  | nil => rfl
  | cons a l ih => simp [h a (by simp), ih (fun x hx => h x (by simp [hx]))]

theorem decodeSlice_encodeSlice (e : Endian) (k w : Nat) (hk : k ≠ 0) (hw : w ≠ 0)
    (s : List (List Nat)) (hs : ∀ r ∈ s, r.length = w ∧ ∀ x ∈ r, x < 256 ^ k) :
    decodeSlice e k w (encodeSlice e k s) = s := by
  unfold decodeSlice encodeSlice
  rw [rleDecode_rleEncode]
  rw [groupList_concatMap k hk _ _ (fun a _ => toBytes_length e k a)]
  rw [List.map_map]
  have hmap : (concatMap (fun r => r) s).map (fromBytes e ∘ toBytes e k) =
      concatMap (fun r => r) s := by
    apply map_eq_self
    intro x hx
    obtain ⟨r, hr, hxr⟩ := mem_concatMap.mp hx
    exact fromBytes_toBytes e k x ((hs r hr).2 x hxr)
  rw [hmap]
  have := groupList_concatMap w hw (fun r : List Nat => r) s (fun r hr => (hs r hr).1)
  rw [this, List.map_id']

theorem putFile_fresh [DecidableEq κ] (d : List (κ × β)) (key : κ) (b : β)
    (h : ∀ p ∈ d, p.1 ≠ key) : putFile d key b = d ++ [(key, b)] := by
  have hany : d.any (fun p => decide (p.1 = key)) = false := by
    simp only [List.any_eq_false]
    intro p hp
    simpa using h p hp
  unfold putFile
  rw [hany]
  simp

theorem writeSlices_eq (e : Endian) (its : Nat) (data : List (List (List Nat))) :
    ∀ (i : Nat) (d : List (Nat × List (Nat × Nat))), (∀ p ∈ d, p.1 < i) →
      writeSlices e its i data d = d ++ encChunks e its i data := by
  induction data with
  | nil => intro i d _; simp [writeSlices, encChunks]
  | cons s rest ih =>
    intro i d hd
    simp only [writeSlices, encChunks]
    rw [putFile_fresh d i _ (fun p hp => Nat.ne_of_lt (hd p hp))]
    rw [ih (i + 1) _ ?_]
    · simp
    · intro p hp
      rcases List.mem_append.mp hp with h1 | h1
      · exact Nat.lt_succ_of_lt (hd p h1)
      · simp at h1
        simp [h1]

theorem encChunks_keys (e : Endian) (its : Nat) (data : List (List (List Nat))) :
    ∀ i, (encChunks e its i data).map Prod.fst = List.range' i data.length := by
  induction data with
  | nil => intro i; simp [encChunks]
  | cons s rest ih => intro i; simp [encChunks, List.range', ih]

theorem encChunks_decode (e : Endian) (its w : Nat) (data : List (List (List Nat))) :
    ∀ i, (encChunks e its i data).map (fun p => decodeSlice e its w p.2) =
      data.map (fun s => decodeSlice e its w (encodeSlice e its s)) := by
  induction data with
  | nil => intro i; simp [encChunks]
  | cons s rest ih => intro i; simp [encChunks, ih]

theorem readStore_writeStoreCore (e : Endian) (v : Volume) (hwf : v.WF)
    (hw : 0 < v.width) (hk : 0 < v.itemsize) :
    readStore (writeStoreCore e v) = v := by
  obtain ⟨hlen, hrest⟩ := hwf
  unfold readStore writeStoreCore
  simp only
  rw [writeSlices_eq e v.itemsize v.data 0 [] (by simp), List.nil_append]
  rw [encChunks_decode]
  have hdata : v.data.map (fun s => decodeSlice e v.itemsize v.width (encodeSlice e v.itemsize s)) =
      v.data := by
    apply map_eq_self
    intro s hsmem
    apply decodeSlice_encodeSlice e v.itemsize v.width (Nat.pos_iff_ne_zero.mp hk)
      (Nat.pos_iff_ne_zero.mp hw)
    intro r hr
    obtain ⟨-, h2⟩ := hrest s hsmem
    exact h2 r hr
  rw [hdata]

theorem digitChar_inj_lt_ten :
    ∀ d1 < 10, ∀ d2 < 10, Nat.digitChar d1 = Nat.digitChar d2 → d1 = d2 := by
  decide

theorem digitChar_ne_zero_char : ∀ d < 10, d ≠ 0 → Nat.digitChar d ≠ '0' := by
  decide

theorem decRepr_inj {a b : Nat} (h : decRepr a = decRepr b) : a = b := by
  unfold decRepr at h
  have hmaps := List.reverse_injective h
  have hdig : Nat.digits 10 a = Nat.digits 10 b := by
    have hbound : ∀ n : Nat, ∀ d ∈ Nat.digits 10 n, d < 10 := by
      intro n d hd
      exact Nat.digits_lt_base (by norm_num) hd
    clear h
    revert hmaps
    generalize hA : Nat.digits 10 a = A
    generalize hB : Nat.digits 10 b = B
    have hAb : ∀ d ∈ A, d < 10 := hA ▸ hbound a
    have hBb : ∀ d ∈ B, d < 10 := hB ▸ hbound b
    clear hA hB
    induction A generalizing B with
    | nil => cases B <;> simp
    | cons x xs ih =>
      cases B with
      | nil => simp
      | cons y ys =>
        intro hmb
        simp only [List.map_cons, List.cons.injEq] at hmb
        have hx : x = y := digitChar_inj_lt_ten x (hAb x (by simp)) y (hBb y (by simp)) hmb.1
        have hxs : xs = ys :=
          ih ys (fun d hd => hAb d (by simp [hd])) (fun d hd => hBb d (by simp [hd])) hmb.2
        simp [hx, hxs]
  calc a = Nat.ofDigits 10 (Nat.digits 10 a) := (Nat.ofDigits_digits 10 a).symm
    _ = Nat.ofDigits 10 (Nat.digits 10 b) := by rw [hdig]
    _ = b := Nat.ofDigits_digits 10 b

theorem replicate_append_cancel {c : Char} {x y : List Char}
    (hx : x.head? ≠ some c) (hy : y.head? ≠ some c) :
    ∀ {p q : Nat}, List.replicate p c ++ x = List.replicate q c ++ y → p = q ∧ x = y := by
  intro p
  induction p generalizing x y with
  | zero =>
    intro q h
    cases q with
    | zero => simpa using h
    | succ q =>
      exfalso
      simp only [List.replicate, List.nil_append, List.cons_append] at h
      rw [h] at hx
      simp at hx
  | succ p ih =>
    intro q h
    cases q with
    | zero =>
      exfalso
      simp only [List.replicate, List.nil_append, List.cons_append] at h
      rw [← h] at hy
      simp at hy
    | succ q =>
      simp only [List.replicate, List.cons_append, List.cons.injEq] at h
      obtain ⟨hpq, hrest⟩ := ih (x := x) (y := y) hx hy h.2
      exact ⟨by omega, hrest⟩

theorem decRepr_head_ne_zero {n : Nat} : (decRepr n).head? ≠ some '0' := by
  by_cases hn : n = 0
  · subst hn
    simp [decRepr, Nat.digits_zero]
  · unfold decRepr
    rw [List.head?_reverse]
    have hne : (Nat.digits 10 n).map Nat.digitChar ≠ [] := by
      simp [Nat.digits_ne_nil_iff_ne_zero, hn]
    rw [List.getLast?_eq_getLast _ hne]
    intro hcontra
    simp only [Option.some.injEq] at hcontra
    have hlast := List.getLast_map (f := Nat.digitChar) (l := Nat.digits 10 n)
      (by simp [Nat.digits_ne_nil_iff_ne_zero, hn])
    rw [hlast] at hcontra
    have hlz := Nat.getLast_digit_ne_zero 10 hn
    have hlt : (Nat.digits 10 n).getLast (by simp [Nat.digits_ne_nil_iff_ne_zero, hn]) < 10 :=
      Nat.digits_lt_base (by norm_num) (List.getLast_mem _)
    exact digitChar_ne_zero_char _ hlt hlz hcontra

theorem decRepr_eq_nil_iff {n : Nat} : decRepr n = [] ↔ n = 0 := by
  unfold decRepr
  rw [List.reverse_eq_nil_iff, List.map_eq_nil_iff]
  exact Nat.digits_eq_nil_iff_eq_zero

theorem pyRepr_head_ne_zero {n : Nat} (hn : n ≠ 0) : (pyRepr n).head? ≠ some '0' := by
  simp only [pyRepr, if_neg hn]
  exact decRepr_head_ne_zero

theorem pad4_zero_data :
    (List.replicate (4 - (pyRepr 0).length) '0' ++ pyRepr 0 : List Char) =
      List.replicate 4 '0' ++ [] := rfl

theorem pad4_inj {a b : Nat} (h : pad4 a = pad4 b) : a = b := by
  have hlist := congrArg String.data h
  simp only [pad4] at hlist
  by_cases ha : a = 0 <;> by_cases hb : b = 0
  · omega
  · exfalso
    subst ha
    rw [pad4_zero_data] at hlist
    have hcancel := replicate_append_cancel (x := ([] : List Char)) (y := pyRepr b)
      (by simp) (pyRepr_head_ne_zero hb) hlist
    have : decRepr b = [] := by
      have h2 := hcancel.2.symm
      simpa [pyRepr, if_neg hb] using h2
    exact hb (decRepr_eq_nil_iff.mp this)
  · exfalso
    subst hb
    rw [pad4_zero_data] at hlist
    have hcancel := replicate_append_cancel (x := pyRepr a) (y := ([] : List Char))
      (pyRepr_head_ne_zero ha) (by simp) hlist
    have : decRepr a = [] := by
      have h2 := hcancel.2
      simpa [pyRepr, if_neg ha] using h2
    exact ha (decRepr_eq_nil_iff.mp this)
  · have hcancel := replicate_append_cancel (x := pyRepr a) (y := pyRepr b)
      (pyRepr_head_ne_zero ha) (pyRepr_head_ne_zero hb) hlist
    have hre := hcancel.2
    simp only [pyRepr, if_neg ha, if_neg hb] at hre
    exact decRepr_inj hre

theorem buildDirFrom_eq {β : Type _} :
    ∀ (events : List (Option (String × β))) (d0 : List (String × β)),
      (∀ p ∈ d0, p.1 ∉ (events.filterMap id).map Prod.fst) →
      ((events.filterMap id).map Prod.fst).Nodup →
      events.foldl writeStep d0 = d0 ++ events.filterMap id := by
  intro events
  induction events with
  | nil => intro d0 _ _; simp
  | cons ev t ih =>
    intro d0 hd hnd
    cases ev with
    | none =>
      simp only [List.foldl_cons, List.filterMap_cons, writeStep] at hd hnd ⊢
      exact ih d0 hd hnd
    | some p =>
      obtain ⟨n, c⟩ := p
      simp only [List.foldl_cons, List.filterMap_cons, id, writeStep] at hd hnd ⊢
      simp only [List.map_cons, List.nodup_cons] at hnd
      rw [putFile_fresh d0 n c (fun q hq => by
        intro hqn
        exact hd q hq (by simp [hqn]))]
      rw [ih (d0 ++ [(n, c)]) ?_ hnd.2]
      · simp
      · intro q hq
        rcases List.mem_append.mp hq with h1 | h1
        · intro hmem
          exact hd q h1 (by simp [hmem])
        · simp at h1
          rw [h1]
          exact hnd.1

theorem buildDir_eq_filterMap {β : Type _} (events : List (Option (String × β)))
    (hnd : ((events.filterMap id).map Prod.fst).Nodup) :
    buildDir events = events.filterMap id := by
  have := buildDirFrom_eq events [] (by simp) hnd
  simpa [buildDir] using this

theorem getD_map_range {g : Nat → α} {N i : Nat} (h : i < N) (d : α) :
    ((List.range N).map g).getD i d = g i := by
  rw [List.getD_eq_getElem _ _ (by simpa using h)]
  simp

theorem map_range_getD (l : List α) (f : α → β) (d : α) :
    (List.range l.length).map (fun i => f (l.getD i d)) = l.map f := by
  induction l with
  | nil => simp
  | cons a t ih =>
    rw [List.length_cons, List.range_succ_eq_map, List.map_cons, List.map_map]
    have htail : (List.range t.length).map ((fun i => f ((a :: t).getD i d)) ∘ Nat.succ) =
        t.map f := by
      rw [← ih]
      apply List.map_congr_left
      intro i _
      rfl
    rw [htail]
    simp

theorem writeEvents_length (arr : Volume) (md : Metadata) (wf : Nat → Bool)
    (tf : Nat → String → Bool) : (writeEvents arr md wf tf).length = arr.depth := by
  simp [writeEvents]

theorem writeEvents_getD (arr : Volume) (md : Metadata) (wf : Nat → Bool)
    (tf : Nat → String → Bool) {i : Nat} (h : i < arr.depth) :
    (writeEvents arr md wf tf).getD i none =
      if wf i then none
      else some (sliceName md.filenames (extensionOf md.filenames) i,
        (arr.data.getD i [], sliceTagsFor md.slices_metadata tf i)) := by
  unfold writeEvents
  rw [getD_map_range h]

theorem writeEvents_nofail (arr : Volume) (md : Metadata) (tf : Nat → String → Bool) :
    writeEvents arr md (fun _ => false) tf =
      (List.range arr.depth).map (fun i =>
        some (sliceName md.filenames (extensionOf md.filenames) i,
          (arr.data.getD i [], sliceTagsFor md.slices_metadata tf i))) := by
  unfold writeEvents
  simp

theorem filterMap_id_map_some {β : Type _} (g : α → β) (l : List α) :
    (l.map (fun a => some (g a))).filterMap id = l.map g := by
  induction l with
  | nil => rfl
  | cons a t ih => simp [ih]

theorem dicom_to_zarr_eq (e : Endian) (inp : SeriesInput) (fs : FS) (h : inp.files ≠ []) :
    dicom_to_zarr e inp fs =
      ({ fs with
          store := some
            { meta :=
                { shape := (inp.arr.depth, inp.arr.height, inp.arr.width)
                  chunkShape := (1, inp.arr.height, inp.arr.width)
                  itemsize := inp.arr.itemsize
                  endian := e
                  blosc := { cname := "zstd", clevel := 1, shuffle := "bitshuffle",
                             typesize := inp.arr.itemsize } }
              chunkFiles := encChunks e inp.arr.itemsize 0 inp.arr.data }
          sidecar := some (save_metadata inp.image inp.reader inp.files) }, true) := by
  have hemp : inp.files.isEmpty = false := by
    cases hf : inp.files with
    | nil => exact absurd hf h
    | cons a t => rfl
  unfold dicom_to_zarr
  rw [hemp]
  have hopen : ∀ prior : Option StoreDir,
      (if fs.store.isSome then none else fs.store) = prior → prior = none →
        True := fun _ _ _ => trivial
  have hrm : (if fs.store.isSome then none else fs.store) = none := by
    cases fs.store <;> rfl
  simp only [Bool.false_eq_true, if_false, hrm, zarrOpenW, Option.map_none', Option.getD_none]
  rw [writeSlices_eq e inp.arr.itemsize inp.arr.data 0 [] (by simp)]
  rfl

theorem zarr_to_dicom_recon (wf : Nat → Bool) (tf : Nat → String → Bool) (fs : FS)
    (st : StoreDir) (md : Metadata) (hs : fs.store = some st) (hm : fs.sidecar = some md) :
    zarr_to_dicom wf tf fs =
      { fs with recon := some (buildDir (writeEvents (readStore st) md wf tf)) } := by
  unfold zarr_to_dicom buildDir
  rw [hs, hm]
  simp only
  congr 1
  cases fs.recon <;> rfl

theorem pad4_append_inj (ext : String) : Function.Injective (fun i => pad4 i ++ ext) := by
  intro a b h
  simp only at h
  have hdata := congrArg String.data h
  rw [String.data_append, String.data_append] at hdata
  exact pad4_inj (String.ext (List.append_cancel_right hdata))

/-- C1: Round-trip losslessness: for every non-empty 3D array of shape
`(D, H, W)` with positive element byte width, reading the chunked store
immediately after writing it returns the array bit-for-bit — same shape,
element type and sample values — under both little- and big-endian
byte-framing configurations (the byte order `e` is universally quantified). -/
theorem roundtrip_losslessness (v : Volume) (e : Endian) (hwf : v.WF)
    (hd : 0 < v.depth) (hh : 0 < v.height) (hw : 0 < v.width) (hk : 0 < v.itemsize) :
    ∃ s, writeStore true e v = Except.ok s ∧ readStore s = v := by
  refine ⟨writeStoreCore e v, ?_, readStore_writeStoreCore e v hwf hw hk⟩
  unfold writeStore
  rw [if_neg (by simp), if_neg (by omega)]

/-- Witness for C1 at a concrete two-slice volume, in both byte orders. -/
theorem roundtrip_losslessness_witness :
    (∃ s, writeStore true Endian.little sampleVolume = Except.ok s ∧
        readStore s = sampleVolume) ∧
      ∃ s, writeStore true Endian.big sampleVolume = Except.ok s ∧
        readStore s = sampleVolume :=
  ⟨roundtrip_losslessness sampleVolume .little (by decide) (by decide) (by decide)
      (by decide) (by decide),
    roundtrip_losslessness sampleVolume .big (by decide) (by decide) (by decide)
      (by decide) (by decide)⟩

/-- C2: Chunk invariant: every store written by `dicom_to_zarr` has chunk
shape exactly `(1, H, W)` for an input array of shape `(D, H, W)`; in
particular the leading chunk dimension is 1 for every input. -/
theorem chunk_invariant (e : Endian) (inp : SeriesInput) (fs : FS) (h : inp.files ≠ []) :
    ∃ s, ((dicom_to_zarr e inp fs).1).store = some s ∧
      s.meta.chunkShape = (1, inp.arr.height, inp.arr.width) ∧
      s.meta.chunkShape.1 = 1 := by
  rw [dicom_to_zarr_eq e inp fs h]
  exact ⟨_, rfl, rfl, rfl⟩

/-- Witness for C2 at a concrete series input. -/
theorem chunk_invariant_witness :
    ∃ s, ((dicom_to_zarr .little sampleInput emptyFS).1).store = some s ∧
      s.meta.chunkShape = (1, sampleInput.arr.height, sampleInput.arr.width) ∧
      s.meta.chunkShape.1 = 1 :=
  chunk_invariant .little sampleInput emptyFS (by decide)

/-- C3: Metadata cardinality: the sidecar record produced by a successful
load-and-save satisfies `len(filenames) = len(slices_metadata) = depth`,
`depth` being the loaded volume's slice count. -/
theorem metadata_cardinality (e : Endian) (inp : SeriesInput) (fs : FS)
    (h : inp.files ≠ []) (hwf : inp.WF) :
    ∃ md, ((dicom_to_zarr e inp fs).1).sidecar = some md ∧
      md.filenames.length = md.slices_metadata.length ∧
      md.slices_metadata.length = inp.arr.depth := by
  rw [dicom_to_zarr_eq e inp fs h]
  refine ⟨save_metadata inp.image inp.reader inp.files, rfl, ?_, ?_⟩ <;>
    simp [save_metadata, hwf.1, hwf.2.1]

/-- Witness for C3 at a concrete series input. -/
theorem metadata_cardinality_witness :
    ∃ md, ((dicom_to_zarr .little sampleInput emptyFS).1).sidecar = some md ∧
      md.filenames.length = md.slices_metadata.length ∧
      md.slices_metadata.length = sampleInput.arr.depth :=
  metadata_cardinality .little sampleInput emptyFS (by decide) (by decide)

/-- C8: Zero-file discovery: when discovery yields no files, `dicom_to_zarr`
signals the skip (`return None, None`), nothing is written for the series,
and `process_series` does not run the reconstruction step: the filesystem is
returned unchanged. -/
theorem zero_file_discovery (e : Endian) (inp : SeriesInput) (wf : Nat → Bool)
    (tf : Nat → String → Bool) (fs : FS) (h : inp.files = []) :
    process_series e inp wf tf fs = fs ∧ dicom_to_zarr e inp fs = (fs, false) := by
  have hemp : inp.files.isEmpty = true := by rw [h]; rfl
  unfold process_series dicom_to_zarr
  rw [hemp]
  simp

/-- Witness for C8 at a concrete empty series. -/
theorem zero_file_discovery_witness :
    process_series .little { sampleInput with files := [] } (fun _ => false)
        (fun _ _ => false) emptyFS = emptyFS ∧
      dicom_to_zarr .little { sampleInput with files := [] } emptyFS = (emptyFS, false) :=
  zero_file_discovery .little { sampleInput with files := [] } (fun _ => false)
    (fun _ _ => false) emptyFS rfl

/-- C9: Degenerate-shape write failure: the store write fails with a
`WriteError` whenever the target path is not writable or any of the three
dimensions of the volume is zero. -/
theorem degenerate_write_failure (w : Bool) (e : Endian) (v : Volume)
    (h : w = false ∨ v.depth = 0 ∨ v.height = 0 ∨ v.width = 0) :
    ∃ err, writeStore w e v = Except.error err := by
  unfold writeStore
  rcases h with h | h
  · rw [if_pos h]
    exact ⟨_, rfl⟩
  · by_cases hw : w = false
    · rw [if_pos hw]
      exact ⟨_, rfl⟩
    · rw [if_neg hw, if_pos h]
      exact ⟨_, rfl⟩

/-- Witness for C9 at a concrete zero-height volume on a writable path. -/
theorem degenerate_write_failure_witness :
    ∃ err, writeStore true Endian.little
        { depth := 3, height := 0, width := 4, itemsize := 2, data := [[], [], []] } =
      Except.error err :=
  degenerate_write_failure true .little
    { depth := 3, height := 0, width := 4, itemsize := 2, data := [[], [], []] }
    (by decide)

theorem writeEvents_nofail_names (arr : Volume) (md : Metadata) (tf : Nat → String → Bool) :
    ((writeEvents arr md (fun _ => false) tf).filterMap id).map Prod.fst =
      (List.range arr.depth).map (sliceName md.filenames (extensionOf md.filenames)) := by
  rw [writeEvents_nofail, filterMap_id_map_some, List.map_map]
  rfl

theorem names_of_full_filenames (fns : List String) (ext : String) (N : Nat)
    (hlen : fns.length = N) :
    (List.range N).map (sliceName fns ext) = fns.map basename := by
  subst hlen
  rw [← map_range_getD fns basename ""]
  apply List.map_congr_left
  intro i hi
  rw [List.mem_range] at hi
  unfold sliceName
  rw [if_pos hi]

theorem names_of_empty_filenames (ext : String) (N : Nat) :
    (List.range N).map (sliceName [] ext) = (List.range N).map (fun i => pad4 i ++ ext) := by
  apply List.map_congr_left
  intro i _
  unfold sliceName
  rw [if_neg (by simp)]

/-- C4: Output naming rule of the reconstruction: whenever recorded filename
`i` exists, slice `i` is written under its basename; for `N` recorded
filenames (with distinct basenames, as produced by recording a single
directory scan) and a depth-`N` reconstruction the output directory holds
exactly those `N` basenames in original order; with no recorded filenames
every slice gets the zero-padded sequential name with the default `".dcm"`
extension. -/
theorem output_naming (st : StoreDir) (md : Metadata) (tf : Nat → String → Bool) (fs : FS)
    (hs : fs.store = some st) (hm : fs.sidecar = some md) :
    ∃ d, (zarr_to_dicom (fun _ => false) tf fs).recon = some d ∧
      (∀ i, i < (readStore st).depth → i < md.filenames.length →
        (writeEvents (readStore st) md (fun _ => false) tf).getD i none =
          some (basename (md.filenames.getD i ""),
            ((readStore st).data.getD i [], sliceTagsFor md.slices_metadata tf i))) ∧
      (md.filenames ≠ [] → md.filenames.length = (readStore st).depth →
        (md.filenames.map basename).Nodup →
        d.map Prod.fst = md.filenames.map basename) ∧
      (md.filenames = [] →
        d.map Prod.fst =
          (List.range (readStore st).depth).map (fun i => pad4 i ++ ".dcm")) := by
  rw [zarr_to_dicom_recon (fun _ => false) tf fs st md hs hm]
  refine ⟨_, rfl, ?_, ?_, ?_⟩
  · intro i hiN him
    rw [writeEvents_getD (readStore st) md _ tf hiN]
    simp only [Bool.false_eq_true, if_false]
    unfold sliceName
    rw [if_pos him]
  · intro hne hlen hnd
    have hnm := writeEvents_nofail_names (readStore st) md tf
    have hnames := names_of_full_filenames md.filenames (extensionOf md.filenames) _ hlen
    have hndev :
        (((writeEvents (readStore st) md (fun _ => false) tf).filterMap id).map
          Prod.fst).Nodup := by
      rw [hnm, hnames]
      exact hnd
    rw [buildDir_eq_filterMap _ hndev]
    calc ((writeEvents (readStore st) md (fun _ => false) tf).filterMap id).map Prod.fst
        = (List.range (readStore st).depth).map
            (sliceName md.filenames (extensionOf md.filenames)) := hnm
      _ = md.filenames.map basename := hnames
  · intro hemp
    have hnm := writeEvents_nofail_names (readStore st) md tf
    have hnames : (List.range (readStore st).depth).map
        (sliceName md.filenames (extensionOf md.filenames)) =
        (List.range (readStore st).depth).map (fun i => pad4 i ++ ".dcm") := by
      rw [hemp]
      exact names_of_empty_filenames _ _
    have hndev :
        (((writeEvents (readStore st) md (fun _ => false) tf).filterMap id).map
          Prod.fst).Nodup := by
      rw [hnm, hnames]
      exact List.Nodup.map (pad4_append_inj ".dcm") (List.nodup_range _)
    rw [buildDir_eq_filterMap _ hndev]
    calc ((writeEvents (readStore st) md (fun _ => false) tf).filterMap id).map Prod.fst
        = (List.range (readStore st).depth).map
            (sliceName md.filenames (extensionOf md.filenames)) := hnm
      _ = (List.range (readStore st).depth).map (fun i => pad4 i ++ ".dcm") := hnames

/-- Witness for C4: reconstructing the concrete two-slice series reuses the
two recorded basenames in original order. -/
theorem output_naming_witness :
    ∃ d, (zarr_to_dicom (fun _ => false) (fun _ _ => false) sampleFS).recon = some d ∧
      d.map Prod.fst = ["a.dcm", "b.dcm"] := by
  obtain ⟨d, hd, -, ha, -⟩ :=
    output_naming sampleStore sampleMetadata (fun _ _ => false) sampleFS rfl rfl
  refine ⟨d, hd, ?_⟩
  rw [ha (by decide) (by decide) (by decide)]
  decide

/-- C5: Per-slice partial-failure tolerance: when the write of slice `k`
raises, every other slice `i < depth` is still written, with its correct
name, pixel content and tags, and lands in the output directory. -/
theorem slice_failure_tolerance (st : StoreDir) (md : Metadata)
    (tf : Nat → String → Bool) (k : Nat) (fs : FS)
    (hs : fs.store = some st) (hm : fs.sidecar = some md)
    (hnd : (((writeEvents (readStore st) md (fun j => decide (j = k)) tf).filterMap id).map
      Prod.fst).Nodup) :
    ∀ i, i < (readStore st).depth → i ≠ k →
      ∃ d, (zarr_to_dicom (fun j => decide (j = k)) tf fs).recon = some d ∧
        (sliceName md.filenames (extensionOf md.filenames) i,
          ((readStore st).data.getD i [], sliceTagsFor md.slices_metadata tf i)) ∈ d := by
  intro i hi hik
  rw [zarr_to_dicom_recon (fun j => decide (j = k)) tf fs st md hs hm]
  refine ⟨_, rfl, ?_⟩
  rw [buildDir_eq_filterMap _ hnd]
  rw [List.mem_filterMap]
  refine ⟨some (sliceName md.filenames (extensionOf md.filenames) i,
    ((readStore st).data.getD i [], sliceTagsFor md.slices_metadata tf i)), ?_, rfl⟩
  unfold writeEvents
  rw [List.mem_map]
  refine ⟨i, List.mem_range.mpr hi, ?_⟩
  simp [hik]

/-- Witness for C5: with the write of slice 1 failing, slice 0 of the
concrete series is still written under its recorded basename. -/
theorem slice_failure_tolerance_witness :
    ∃ d, (zarr_to_dicom (fun j => decide (j = 1)) (fun _ _ => false) sampleFS).recon =
        some d ∧
      (sliceName sampleMetadata.filenames (extensionOf sampleMetadata.filenames) 0,
        ((readStore sampleStore).data.getD 0 [],
          sliceTagsFor sampleMetadata.slices_metadata (fun _ _ => false) 0)) ∈ d :=
  slice_failure_tolerance sampleStore sampleMetadata (fun _ _ => false) 1 sampleFS
    rfl rfl (by decide) 0 (by decide) (by decide)

/-- C6: Per-key tag-attach tolerance: each key/value pair is attached
individually, so a failure on one key changes nothing about the other keys
of the slice (first conjunct: two failure behaviours agreeing outside `key`
attach the same pairs outside `key`), and tag-attach failures never change
which files get written, their names or their pixel content (second
conjunct). -/
theorem tag_attach_tolerance :
    (∀ (ts : List (String × String)) (f g : String → Bool) (key : String),
        (∀ s, s ≠ key → f s = g s) →
        (attachTags f ts).filter (fun p => decide (p.1 ≠ key)) =
          (attachTags g ts).filter (fun p => decide (p.1 ≠ key))) ∧
      ∀ (arr : Volume) (md : Metadata) (wf : Nat → Bool) (tf tf' : Nat → String → Bool),
        (writeEvents arr md wf tf).map (Option.map (fun x => (x.1, x.2.1))) =
          (writeEvents arr md wf tf').map (Option.map (fun x => (x.1, x.2.1))) := by
  constructor
  · intro ts f g key hfg
    unfold attachTags
    rw [List.filter_filter, List.filter_filter]
    congr 1
    funext p
    by_cases hpk : p.1 = key
    · simp [hpk]
    · simp [hpk, hfg p.1 hpk]
  · intro arr md wf tf tf'
    unfold writeEvents
    rw [List.map_map, List.map_map]
    apply List.map_congr_left
    intro i _
    by_cases hwi : wf i <;> simp [hwi]

/-- Witness for C6 at a concrete tag list and a pair of failure behaviours
differing exactly at key `"0010|0010"`, and at the concrete series. -/
theorem tag_attach_tolerance_witness :
    ((attachTags (fun s => decide (s = "0010|0010"))
        [("0008|0018", "1"), ("0010|0010", "X"), ("0020|0013", "2")]).filter
          (fun p => decide (p.1 ≠ "0010|0010")) =
      (attachTags (fun _ => false)
        [("0008|0018", "1"), ("0010|0010", "X"), ("0020|0013", "2")]).filter
          (fun p => decide (p.1 ≠ "0010|0010"))) ∧
      (writeEvents (readStore sampleStore) sampleMetadata (fun _ => false)
          (fun _ s => decide (s = "0010|0010"))).map (Option.map (fun x => (x.1, x.2.1))) =
        (writeEvents (readStore sampleStore) sampleMetadata (fun _ => false)
          (fun _ _ => false)).map (Option.map (fun x => (x.1, x.2.1))) :=
  ⟨tag_attach_tolerance.1 [("0008|0018", "1"), ("0010|0010", "X"), ("0020|0013", "2")]
      (fun s => decide (s = "0010|0010")) (fun _ => false) "0010|0010"
      (fun s hs => decide_eq_false hs),
    tag_attach_tolerance.2 (readStore sampleStore) sampleMetadata (fun _ => false)
      (fun _ s => decide (s = "0010|0010")) (fun _ _ => false)⟩

/-- C7: Overwrite idempotence: the store produced by the write step does not
depend on what was at the target path before (in particular a second run
over the first run's output leaves exactly one store whose chunk keys are
exactly `range D` — never a merge), and the reconstruction output directory
does not depend on the prior directory contents; with all writes succeeding
and distinct output names it holds exactly `N` files. -/
theorem overwrite_idempotence :
    (∀ (e : Endian) (inp : SeriesInput) (fs fs' : FS), inp.files ≠ [] → inp.arr.WF →
        (dicom_to_zarr e inp fs).1.store = (dicom_to_zarr e inp fs').1.store ∧
          ∃ s, (dicom_to_zarr e inp fs).1.store = some s ∧
            s.chunkFiles.map Prod.fst = List.range inp.arr.depth) ∧
      ∀ (st : StoreDir) (md : Metadata) (tf : Nat → String → Bool) (fs fs' : FS),
        fs.store = some st → fs.sidecar = some md →
        fs'.store = some st → fs'.sidecar = some md →
        (zarr_to_dicom (fun _ => false) tf fs).recon =
            (zarr_to_dicom (fun _ => false) tf fs').recon ∧
          ((((writeEvents (readStore st) md (fun _ => false) tf).filterMap id).map
              Prod.fst).Nodup →
            ∃ d, (zarr_to_dicom (fun _ => false) tf fs).recon = some d ∧
              d.length = (readStore st).depth) := by
  constructor
  · intro e inp fs fs' h hwf
    rw [dicom_to_zarr_eq e inp fs h, dicom_to_zarr_eq e inp fs' h]
    refine ⟨rfl, _, rfl, ?_⟩
    rw [encChunks_keys, List.range_eq_range', hwf.1]
  · intro st md tf fs fs' hs hm hs' hm'
    rw [zarr_to_dicom_recon (fun _ => false) tf fs st md hs hm,
      zarr_to_dicom_recon (fun _ => false) tf fs' st md hs' hm']
    refine ⟨rfl, fun hnd => ⟨_, rfl, ?_⟩⟩
    rw [buildDir_eq_filterMap _ hnd, writeEvents_nofail, filterMap_id_map_some]
    simp

/-- Witness for C7: rerunning both steps over the concrete states (including
one with a stale three-file reconstruction directory) yields the same store
and directory as a fresh run, with 2 chunks and 2 files. -/
theorem overwrite_idempotence_witness :
    ((dicom_to_zarr .little sampleInput
          (dicom_to_zarr .little sampleInput emptyFS).1).1.store =
        (dicom_to_zarr .little sampleInput emptyFS).1.store ∧
      ∃ s, (dicom_to_zarr .little sampleInput
          (dicom_to_zarr .little sampleInput emptyFS).1).1.store = some s ∧
        s.chunkFiles.map Prod.fst = List.range sampleInput.arr.depth) ∧
      (zarr_to_dicom (fun _ => false) (fun _ _ => false) sampleFS).recon =
          (zarr_to_dicom (fun _ => false) (fun _ _ => false) staleFS).recon ∧
        ∃ d, (zarr_to_dicom (fun _ => false) (fun _ _ => false) sampleFS).recon = some d ∧
          d.length = (readStore sampleStore).depth :=
  ⟨(overwrite_idempotence.1 .little sampleInput
      (dicom_to_zarr .little sampleInput emptyFS).1 emptyFS (by decide) (by decide)),
    let h := overwrite_idempotence.2 sampleStore sampleMetadata (fun _ _ => false)
      sampleFS staleFS rfl rfl rfl rfl
    ⟨h.1, h.2 (by decide)⟩⟩

/-- C10: Sidecar/store depth-mismatch safety: with `m` recorded filenames
and `t` recorded tag mappings, `m < N` or `t < N`, the loop still produces
one write per slice index below `N`: every event exists, slices `i ≥ m` get
the zero-padded sequential fallback name (whose extension comes from
`filenames[0]` when `m > 0`), slices `i ≥ t` get no tags, and the
reconstruction completes into an output directory. -/
theorem sidecar_mismatch_safety (st : StoreDir) (md : Metadata)
    (tf : Nat → String → Bool) (fs : FS)
    (hs : fs.store = some st) (hm : fs.sidecar = some md)
    (hmis : md.filenames.length < (readStore st).depth ∨
      md.slices_metadata.length < (readStore st).depth) :
    (writeEvents (readStore st) md (fun _ => false) tf).length = (readStore st).depth ∧
      (∀ i, i < (readStore st).depth →
        ((writeEvents (readStore st) md (fun _ => false) tf).getD i none).isSome = true) ∧
      (∀ i, i < (readStore st).depth → md.filenames.length ≤ i →
        (writeEvents (readStore st) md (fun _ => false) tf).getD i none =
          some (pad4 i ++ extensionOf md.filenames,
            ((readStore st).data.getD i [], sliceTagsFor md.slices_metadata tf i))) ∧
      (∀ i, md.slices_metadata.length ≤ i →
        sliceTagsFor md.slices_metadata tf i = []) ∧
      (md.filenames ≠ [] →
        extensionOf md.filenames = (splitext (md.filenames.headD "")).2) ∧
      ∃ d, (zarr_to_dicom (fun _ => false) tf fs).recon = some d := by
  refine ⟨writeEvents_length _ _ _ _, ?_, ?_, ?_, ?_, ?_⟩
  · intro i hi
    rw [writeEvents_getD (readStore st) md _ tf hi]
    simp
  · intro i hi him
    rw [writeEvents_getD (readStore st) md _ tf hi]
    simp only [Bool.false_eq_true, if_false]
    unfold sliceName
    rw [if_neg (by omega)]
  · intro i hit
    unfold sliceTagsFor
    rw [if_neg (by omega)]
  · intro hne
    unfold extensionOf
    rw [if_neg (by cases hf : md.filenames with
      | nil => exact absurd hf hne
      | cons a t => simp)]
  · rw [zarr_to_dicom_recon (fun _ => false) tf fs st md hs hm]
    exact ⟨_, rfl⟩

/-- Witness for C10 at the concrete depth-2 store paired with a sidecar
holding one filename and no tag mappings. -/
theorem sidecar_mismatch_safety_witness :
    (writeEvents (readStore sampleStore) shortMetadata (fun _ => false)
        (fun _ _ => false)).length = (readStore sampleStore).depth ∧
      (∀ i, i < (readStore sampleStore).depth →
        ((writeEvents (readStore sampleStore) shortMetadata (fun _ => false)
          (fun _ _ => false)).getD i none).isSome = true) ∧
      (∀ i, i < (readStore sampleStore).depth → shortMetadata.filenames.length ≤ i →
        (writeEvents (readStore sampleStore) shortMetadata (fun _ => false)
            (fun _ _ => false)).getD i none =
          some (pad4 i ++ extensionOf shortMetadata.filenames,
            ((readStore sampleStore).data.getD i [],
              sliceTagsFor shortMetadata.slices_metadata (fun _ _ => false) i))) ∧
      (∀ i, shortMetadata.slices_metadata.length ≤ i →
        sliceTagsFor shortMetadata.slices_metadata (fun _ _ => false) i = []) ∧
      (shortMetadata.filenames ≠ [] →
        extensionOf shortMetadata.filenames =
          (splitext (shortMetadata.filenames.headD "")).2) ∧
      ∃ d, (zarr_to_dicom (fun _ => false) (fun _ _ => false) mismatchFS).recon = some d :=
  sidecar_mismatch_safety sampleStore shortMetadata (fun _ _ => false) mismatchFS
    rfl rfl (by decide)

end DicomZarr

